import Mathlib

/-!
Verification of the wake-potential / spectral-transform module
(`Scripts/CST/solver_module.py`) of the WarpBasics repository.

The numerical code is shallowly embedded over `ℚ`: numpy arrays become
`List ℚ`, 2-d/3-d arrays become functions of their indices, complex
numbers become pairs `ℚ × ℚ`, and the final real-valued scalings that
involve a square root are carried out over `ℝ`.  Python/numpy
primitives (`int(..)` truncation, negative-index wraparound,
`np.linspace`, `np.arange`, `np.interp`, `np.fft.fftfreq`,
`scipy.fftpack.rfftfreq`, boolean-mask selection) are embedded first,
then the module functions `FFT`, `DFT`, `calc_long_WP`,
`calc_trans_WP` are translated, and the stated properties are proved
or refuted.
-/

namespace SolverModule

/-- Python `int(x)`: truncation toward zero. -/
def pyInt (x : ℚ) : ℤ := if x < 0 then ⌈x⌉ else ⌊x⌋

/-- Python/numpy indexing of an array of length `n` with a possibly
negative index: a negative index `i` addresses slot `n + i`. -/
def pyIdx (n : ℕ) (i : ℤ) : ℕ :=
  (if i < 0 then (n : ℤ) + i else i).toNat

/-- `np.linspace a b n`: `n` evenly spaced points from `a` to `b`,
endpoints included (`n = 1` gives `[a]`, `n = 0` gives `[]`). -/
def linspace (a b : ℚ) (n : ℕ) : List ℚ :=
  if n ≤ 1 then List.replicate n a
  else (List.range n).map (fun i : ℕ => a + (i : ℚ) * (b - a) / ((n : ℚ) - 1))

/-- `np.arange a b step`: points `a, a+step, ...` strictly below `b`;
the point count is `⌈(b-a)/step⌉` as numpy computes it. -/
def arange (a b step : ℚ) : List ℚ :=
  (List.range (⌈(b - a) / step⌉).toNat).map (fun i : ℕ => a + (i : ℚ) * step)

/-- One-point linear interpolation at `x` over the node/value pairs
`pts` (as `np.interp`): clamped to the first value below the first
node and to the last value above the last node, linear in between. -/
def interpPts (x : ℚ) : List (ℚ × ℚ) → ℚ
  | [] => 0
  | [(_, y1)] => y1
  | (x1, y1) :: (x2, y2) :: rest =>
    if x ≤ x1 then y1
    else if x ≤ x2 then y1 + (y2 - y1) * (x - x1) / (x2 - x1)
    else interpPts x ((x2, y2) :: rest)

/-- `np.interp xs xp fp`: linear interpolation of each point of `xs`
on the sample points `xp` with values `fp`. -/
def npInterp (xs xp fp : List ℚ) : List ℚ :=
  xs.map (fun x => interpPts x (xp.zip fp))

/-- `np.max` over a list (0 on the empty list, which numpy rejects). -/
def listMax : List ℚ → ℚ
  | [] => 0
  | x :: xs => xs.foldl max x

/-- `np.min` over a list (0 on the empty list, which numpy rejects). -/
def listMin : List ℚ → ℚ
  | [] => 0
  | x :: xs => xs.foldl min x

/-- The scipy value of the speed of light `c` in m/s
(`scipy.constants.c`, exact in floating point). -/
def cLight : ℚ := 299792458

/-- `np.fft.fftfreq n d`: the DFT bin frequencies, nonnegative bins
`k/(n*d)` for `k < ⌈n/2⌉` first, then the negative bins. -/
def fftfreq (n : ℕ) (d : ℚ) : List ℚ :=
  (List.range n).map (fun k =>
    if k < (n + 1) / 2 then (k : ℚ) / (n * d) else ((k : ℚ) - n) / (n * d))

/-- `scipy.fftpack.rfftfreq n d`: bin `k` holds `((k+1)/2)/(n*d)`,
i.e. the packed-layout frequencies `0, 1, 1, 2, 2, ...` over `n*d`. -/
def rfftfreq (n : ℕ) (d : ℚ) : List ℚ :=
  (List.range n).map (fun k => (((k + 1) / 2 : ℕ) : ℚ) / (n * d))

/-- Boolean-mask selection `xs[mask]` of numpy. -/
def maskSel {α : Type} (xs : List α) (mask : List Bool) : List α :=
  ((xs.zip mask).filter (fun p => p.2)).map (fun p => p.1)

/-- The mask `np.arange n % 2 == 0` (true at even slots). -/
def boolMaskEven (n : ℕ) : List Bool :=
  (List.range n).map (fun i => i % 2 == 0)

/-- Overwrite slot 0 of a boolean mask (`mask[0] = b`). -/
def setFirst : List Bool → Bool → List Bool
  | [], _ => []
  | _ :: xs, b => b :: xs

/-- Overwrite the last slot of a boolean mask (`mask[-1] = b`). -/
def setLast : List Bool → Bool → List Bool
  | [], _ => []
  | [_], b => [b]
  | x :: y :: xs, b => x :: setLast (y :: xs) b

/-! ## The `FFT` function

`np.fft.fft` itself is transcendental, so the pipeline is embedded
generically over the Fourier kernel `F` (complex values as pairs
`ℚ × ℚ`); everything around it is translated literally. -/

/-- `dts = 1/(2.0*fmax)`. -/
def fftDts (fmax : ℚ) : ℚ := 1 / (2 * fmax)

/-- The resampling step of `FFT`: interpolate `Xt` from the grid
`np.linspace 0 T N` onto `np.arange 0 T dts`, `T = N*dt`. -/
def fftResample (Xt : List ℚ) (dt fmax : ℚ) : List ℚ :=
  npInterp (arange 0 (Xt.length * dt) (fftDts fmax))
    (linspace 0 (Xt.length * dt) Xt.length) Xt

/-- `Ns = N/(dts/dt)`, the effective resampled point count. -/
def fftNs (Xt : List ℚ) (dt fmax : ℚ) : ℚ :=
  (Xt.length : ℚ) / (fftDts fmax / dt)

/-- The zero-padding step of `FFT`: when the flag is set, surround the
resampled signal with `int(r*Ns)` zeros on each side. -/
def fftPadded (Xt : List ℚ) (dt fmax r : ℚ) (flag : Bool) : List ℚ :=
  let Xs := fftResample Xt dt fmax
  if flag then
    let pad := (pyInt (r * fftNs Xt dt fmax)).toNat
    List.replicate pad 0 ++ Xs ++ List.replicate pad 0
  else Xs

/-- The mask step of `FFT`: pair the transform values with their
`fftfreq` frequencies and keep the bins with frequency `≥ 0`. -/
def fftMasked (F : List ℚ → List (ℚ × ℚ)) (Xt : List ℚ)
    (dt fmax r : ℚ) (flag : Bool) : List ((ℚ × ℚ) × ℚ) :=
  let Xfft := F (fftPadded Xt dt fmax r flag)
  let ffft := fftfreq Xfft.length (fftDts fmax)
  (Xfft.zip ffft).filter (fun p => 0 ≤ p.2)

/-- The retained positive spectrum before the Parseval correction:
`Xf = 2.0*Xfft[mask]/Ns`. -/
def fftXfPre (F : List ℚ → List (ℚ × ℚ)) (Xt : List ℚ)
    (dt fmax r : ℚ) (flag : Bool) : List (ℚ × ℚ) :=
  (fftMasked F Xt dt fmax r flag).map
    (fun p => (2 * p.1.1 / fftNs Xt dt fmax, 2 * p.1.2 / fftNs Xt dt fmax))

/-- The retained frequencies `f = ffft[mask]`. -/
def fftFOut (F : List ℚ → List (ℚ × ℚ)) (Xt : List ℚ)
    (dt fmax r : ℚ) (flag : Bool) : List ℚ :=
  (fftMasked F Xt dt fmax r flag).map (fun p => p.2)

/-- Time-domain energy `Et = Σ |Xs|²` of the (possibly padded)
resampled signal. -/
def fftEt (Xt : List ℚ) (dt fmax r : ℚ) (flag : Bool) : ℚ :=
  ((fftPadded Xt dt fmax r flag).map (fun x => x ^ 2)).sum

/-- Frequency-domain energy `Ef = Σ |Xfft|² / len(ffft)` of the full
spectrum. -/
def fftEf (F : List ℚ → List (ℚ × ℚ)) (Xt : List ℚ)
    (dt fmax r : ℚ) (flag : Bool) : ℚ :=
  (((F (fftPadded Xt dt fmax r flag)).map (fun z => z.1 ^ 2 + z.2 ^ 2)).sum) /
    ((F (fftPadded Xt dt fmax r flag)).length : ℚ)

/-- Parseval correction factor `K = sqrt(Et/Ef)`. -/
noncomputable def fftK (F : List ℚ → List (ℚ × ℚ)) (Xt : List ℚ)
    (dt fmax r : ℚ) (flag : Bool) : ℝ :=
  Real.sqrt ((fftEt Xt dt fmax r flag / fftEf F Xt dt fmax r flag : ℚ) : ℝ)

/-- The full `FFT` function: returns `(K*Xf, f)` with
`Xf = 2*Xfft[mask]/Ns`. -/
noncomputable def FFT (F : List ℚ → List (ℚ × ℚ)) (Xt : List ℚ)
    (dt fmax r : ℚ) (flag : Bool) : List (ℝ × ℝ) × List ℚ :=
  ((fftXfPre F Xt dt fmax r flag).map
      (fun z => (fftK F Xt dt fmax r flag * (z.1 : ℝ),
                 fftK F Xt dt fmax r flag * (z.2 : ℝ))),
   fftFOut F Xt dt fmax r flag)

/-! ## The `DFT` function

`scipy.fftpack.rfft` is likewise embedded as an abstract kernel `R`
producing the packed real coefficient array; the resampling, the
packed-layout unpacking into a complex spectrum, the Parseval factor
and the final scaling are translated literally. -/

/-- The resampling step of `DFT`: interpolate `Xt` from the grid
`np.arange 0 T dt` onto `np.arange 0 T dts`, `T = N*dt`. -/
def dftResample (Xt : List ℚ) (dt fmax : ℚ) : List ℚ :=
  npInterp (arange 0 (Xt.length * dt) (fftDts fmax))
    (arange 0 (Xt.length * dt) dt) Xt

/-- The boolean mask `Re` selecting the packed real parts: the odd
slots, with the final slot cleared when `Nf` is even. -/
def dftRe (Nf : ℕ) : List Bool :=
  if Nf % 2 = 0 then setLast ((boolMaskEven Nf).map not) false
  else (boolMaskEven Nf).map not

/-- The boolean mask `Im` selecting the packed imaginary parts: the
even slots with slot 0 cleared. -/
def dftIm (Nf : ℕ) : List Bool := setFirst (boolMaskEven Nf) false

/-- Reconstruction of the complex spectrum `Z` from the packed array:
`Z[0]` is the DC coefficient, `Z[1:] = Xf[Re] + 1j*Xf[Im]`. -/
def dftZ (Xf : List ℚ) (Nf : ℕ) : List (ℚ × ℚ) :=
  (Xf.getD 0 0, 0) :: ((maskSel Xf (dftRe Nf)).zip (maskSel Xf (dftIm Nf)))

/-- Frequencies of the reconstructed spectrum:
`Zf[0] = 0`, `Zf[1:] = f[Im]`. -/
def dftZf (f : List ℚ) (Nf : ℕ) : List ℚ := 0 :: maskSel f (dftIm Nf)

/-- Time-domain energy of the resampled signal in `DFT`. -/
def dftEt (Xt : List ℚ) (dt fmax : ℚ) : ℚ :=
  ((dftResample Xt dt fmax).map (fun x => x ^ 2)).sum

/-- Frequency-domain energy
`Ef = (Xf[0]² + 2*Σ Xf[1:]²)/len(f)` of the packed spectrum. -/
def dftEf (Xf : List ℚ) : ℚ :=
  (Xf.headD 0 ^ 2 + 2 * (((Xf.drop 1).map (fun x => x ^ 2)).sum)) /
    (Xf.length : ℚ)

/-- The full `DFT` function over an abstract packed-transform kernel
`R`: returns `(K*Z/(Ns/2), Zf)`. -/
noncomputable def DFT (R : List ℚ → ℕ → List ℚ) (Xt : List ℚ)
    (dt fmax : ℚ) (Nf : ℕ) : List (ℝ × ℝ) × List ℚ :=
  let Xs := dftResample Xt dt fmax
  let Xf := R Xs Nf
  let f := rfftfreq Xf.length (fftDts fmax)
  let Ns : ℚ := fftNs Xt dt fmax
  let K : ℝ := Real.sqrt ((dftEt Xt dt fmax / dftEf Xf : ℚ) : ℝ)
  ((dftZ Xf Nf).map
      (fun z => (K * (z.1 : ℝ) / ((Ns : ℝ) / 2), K * (z.2 : ℝ) / ((Ns : ℝ) / 2))),
   dftZf f Nf)

/-! ## The `calc_long_WP` function

Inputs are bundled in a structure: the field snapshots (a function of
time step and transverse indices, giving the longitudinal profile),
the metadata arrays `t`, `z` and scalars `t_inj`, `q`.  The
diagnostic `print` calls of the source are dropped. -/

structure WakeInput where
  fld : ℕ → ℕ → ℕ → List ℚ
  t : List ℚ
  z : List ℚ
  tinj : ℚ
  q : ℚ

/-- `nt = len(t)`. -/
def WakeInput.nt (d : WakeInput) : ℕ := d.t.length

/-- `dt = t[2] - t[1]`. -/
def WakeInput.dt (d : WakeInput) : ℚ := d.t.getD 2 0 - d.t.getD 1 0

/-- `zmax = max(z)`. -/
def WakeInput.zmax (d : WakeInput) : ℚ := listMax d.z

/-- `zmin = min(z)`. -/
def WakeInput.zmin (d : WakeInput) : ℚ := listMin d.z

/-- `zi = np.linspace(zmin, zmax, nt)`. -/
def WakeInput.zi (d : WakeInput) : List ℚ := linspace d.zmin d.zmax d.nt

/-- `dzi = zi[2] - zi[1]`. -/
def WakeInput.dzi (d : WakeInput) : ℚ := d.zi.getD 2 0 - d.zi.getD 1 0

/-- `Wake_length = nt*dt*c - (zmax-zmin) - t_inj*c`. -/
def WakeInput.wakeLength (d : WakeInput) : ℚ :=
  (d.nt : ℚ) * d.dt * cLight - (d.zmax - d.zmin) - d.tinj * cLight

/-- `ns_neg = int(t_inj/dt)`. -/
def WakeInput.nsNeg (d : WakeInput) : ℕ := (pyInt (d.tinj / d.dt)).toNat

/-- `ns_pos = int(Wake_length/(dt*c))`. -/
def WakeInput.nsPos (d : WakeInput) : ℕ :=
  (pyInt (d.wakeLength / (d.dt * cLight))).toNat

/-- `s = append(linspace(-t_inj*c, 0, ns_neg), linspace(0, Wake_length, ns_pos))`. -/
def WakeInput.s (d : WakeInput) : List ℚ :=
  linspace (-d.tinj * cLight) 0 d.nsNeg ++ linspace 0 d.wakeLength d.nsPos

/-- `Ezi[k, n]` for transverse offset `(i, j)`: snapshot `n`
interpolated from the native grid `z` onto `zi`, read at `zi[k]`. -/
def WakeInput.Ezi (d : WakeInput) (i j k n : ℕ) : ℚ :=
  (npInterp d.zi d.z (d.fld n i j)).getD k 0

/-- `ts[k,n] = (zi[k]+s[n])/c - zmin/c - t[0] + t_inj`. -/
def WakeInput.ts (d : WakeInput) (k n : ℕ) : ℚ :=
  (d.zi.getD k 0 + d.s.getD n 0) / cLight - d.zmin / cLight - d.t.getD 0 0 + d.tinj

/-- The inner `k`-loop of `calc_long_WP` at output index `n`, started
from the current accumulator value `w0`: gate on `ts[k,n] > 0`, index
the interpolated field at `it = int(ts[k,n]/dt) - 1` with Python
negative-index wraparound, and accumulate `Ezi[k,it]*dzi`. -/
def WakeInput.wpEntry (d : WakeInput) (i j : ℕ) (w0 : ℚ) (n : ℕ) : ℚ :=
  (List.range d.nt).foldl
    (fun acc k =>
      if 0 < d.ts k n then
        acc + d.Ezi i j k (pyIdx d.nt (pyInt (d.ts k n / d.dt) - 1)) * d.dzi
      else acc)
    w0

/-- One transverse offset of the `calc_long_WP` main loop: the `s`
loop run on top of the incoming accumulator array `wp` (the source
never resets `WP` between offsets). -/
def WakeInput.wpOffset (d : WakeInput) (i j : ℕ) (wp : List ℚ) : List ℚ :=
  (List.range d.s.length).map (fun n => d.wpEntry i j (wp.getD n 0) n)

/-- The 9 transverse offsets in the iteration order of the source
(`i` outer, `j` inner), as stored indices `(i0+i, j0+j)`. -/
def offsets : List (ℕ × ℕ) :=
  [(0, 0), (0, 1), (0, 2), (1, 0), (1, 1), (1, 2), (2, 0), (2, 1), (2, 2)]

/-- The full offset loop of `calc_long_WP`: the accumulator `WP`
persists across offsets; after each offset it is divided by `q*1e12`
and the result is both stored as the slice `WP_3d[i0+i, j0+j, :]` and
carried into the next offset.  Returns the 9 slices in offset
order. -/
def WakeInput.wpAll (d : WakeInput) : List (List ℚ) :=
  (offsets.foldl
      (fun st ij =>
        let norm := (d.wpOffset ij.1 ij.2 st.1).map
          (fun x => x / (d.q * 1000000000000))
        (norm, st.2 ++ [norm]))
      ((List.replicate d.s.length 0 : List ℚ), ([] : List (List ℚ)))).2

/-- The slice `WP_3d[i, j, :]` returned by `calc_long_WP`. -/
def WakeInput.wp3d (d : WakeInput) (i j : ℕ) : List ℚ :=
  d.wpAll.getD (3 * i + j) []

/-- The per-offset algorithm run on offset `(i, j)` alone: the same
interpolation, retarded-time accumulation and charge normalization,
started from a zero accumulator. -/
def WakeInput.wpStandalone (d : WakeInput) (i j : ℕ) : List ℚ :=
  (d.wpOffset i j (List.replicate d.s.length 0)).map
    (fun x => x / (d.q * 1000000000000))

/-! ## The `calc_trans_WP` function

The source reads `dx` and `dy` from names that are not defined in the
function or module (a latent defect flagged by the spec); they are
taken as explicit parameters here. -/

/-- `calc_trans_WP`: cumulative longitudinal integral per offset, then
the centered transverse gradient.  `WP3d i j n` is the input array
`WP_3d[i,j,n]`. -/
def calcTransWP (s : List ℚ) (WP3d : ℕ → ℕ → ℕ → ℚ) (dx dy : ℚ) :
    List ℚ × List ℚ :=
  let ds := s.getD 2 0 - s.getD 1 0
  let intWP := fun i j n => (((List.range n).map (fun k => WP3d i j k)).sum) * ds
  ((List.range s.length).map (fun n => -(intWP 2 1 n - intWP 0 1 n) / (2 * dx)),
   (List.range s.length).map (fun n => -(intWP 1 2 n - intWP 1 0 n) / (2 * dy)))

/-! ## Helper lemmas on the embedded numpy primitives -/

theorem getD_map_range (f : ℕ → ℚ) {n m : ℕ} (d : ℚ) (h : m < n) :
    ((List.range n).map f).getD m d = f m := by
  rw [List.getD_eq_getElem?_getD]
  simp [List.getElem?_map, List.getElem?_range, h]

theorem linspace_length (a b : ℚ) (n : ℕ) : (linspace a b n).length = n := by
  unfold linspace
  split <;> simp

theorem linspace_getD (a b : ℚ) {n m : ℕ} (h2 : 2 ≤ n) (hm : m < n) :
    (linspace a b n).getD m 0 = a + m * (b - a) / ((n : ℚ) - 1) := by
  unfold linspace
  rw [if_neg (by omega)]
  exact getD_map_range _ 0 hm

theorem linspace_getD_zero (a b : ℚ) {n : ℕ} (h : 1 ≤ n) :
    (linspace a b n).getD 0 0 = a := by
  rcases Nat.lt_or_ge n 2 with h1 | h1
  · have : n = 1 := by omega
    subst this
    simp [linspace]
  · rw [linspace_getD a b h1 (by omega)]
    push_cast
    ring

theorem linspace_getD_last (a b : ℚ) {n : ℕ} (h2 : 2 ≤ n) :
    (linspace a b n).getD (n - 1) 0 = b := by
  rw [linspace_getD a b h2 (by omega)]
  have hn : ((n : ℚ) - 1) ≠ 0 := by
    have : (2 : ℚ) ≤ (n : ℚ) := by exact_mod_cast h2
    linarith
  have hcast : (((n - 1 : ℕ)) : ℚ) = (n : ℚ) - 1 := by
    push_cast [Nat.cast_sub (by omega : 1 ≤ n)]
    ring
  rw [hcast]
  field_simp

theorem linspace_strict_adj (a b : ℚ) {n m : ℕ} (h2 : 2 ≤ n) (hab : a < b)
    (hm : m + 1 < n) :
    (linspace a b n).getD m 0 < (linspace a b n).getD (m + 1) 0 := by
  rw [linspace_getD a b h2 (by omega), linspace_getD a b h2 hm]
  have hstep : 0 < (b - a) / ((n : ℚ) - 1) := by
    apply div_pos (by linarith)
    have : (2 : ℚ) ≤ (n : ℚ) := by exact_mod_cast h2
    linarith
  have hmm : (m : ℚ) < ((m + 1 : ℕ) : ℚ) := by exact_mod_cast Nat.lt_succ_self m
  calc a + (m : ℚ) * (b - a) / ((n : ℚ) - 1)
      = a + (m : ℚ) * ((b - a) / ((n : ℚ) - 1)) := by ring
    _ < a + ((m + 1 : ℕ) : ℚ) * ((b - a) / ((n : ℚ) - 1)) := by
        have := mul_lt_mul_of_pos_right hmm hstep
        linarith
    _ = a + ((m + 1 : ℕ) : ℚ) * (b - a) / ((n : ℚ) - 1) := by ring

/-- Length of the output coordinate array `s`. -/
theorem wake_s_length (d : WakeInput) : d.s.length = d.nsNeg + d.nsPos := by
  unfold WakeInput.s
  rw [List.length_append, linspace_length, linspace_length]

/-- Reading `s` inside the negative segment. -/
theorem wake_s_getD_left (d : WakeInput) {m : ℕ} (h : m < d.nsNeg) :
    d.s.getD m 0 = (linspace (-d.tinj * cLight) 0 d.nsNeg).getD m 0 := by
  unfold WakeInput.s
  exact List.getD_append _ _ 0 m (by rw [linspace_length]; exact h)

/-- Reading `s` inside the positive segment. -/
theorem wake_s_getD_right (d : WakeInput) {m : ℕ} (h : d.nsNeg ≤ m) :
    d.s.getD m 0 = (linspace 0 d.wakeLength d.nsPos).getD (m - d.nsNeg) 0 := by
  unfold WakeInput.s
  rw [List.getD_append_right _ _ 0 m (by rw [linspace_length]; exact h),
    linspace_length]

/-- A concrete valid wake-computation input: uniform time array of 5
samples with `dt = 1`, native grid `z = [0, c]`, injection delay
`t_inj = 3`, charge `q = 1 pC`, and a field that is constantly 1. -/
def exInput : WakeInput :=
  { fld := fun _ _ _ => [1, 1]
    t := [0, 1, 2, 3, 4]
    z := [0, cLight]
    tinj := 3
    q := 1 / 1000000000000 }

theorem exInput_nt : exInput.nt = 5 := by
  simp [exInput, WakeInput.nt]

theorem exInput_dt : exInput.dt = 1 := by
  simp [exInput, WakeInput.dt]
  norm_num

theorem exInput_zmin : exInput.zmin = 0 := by
  simp [exInput, WakeInput.zmin, listMin]
  norm_num [cLight]

theorem exInput_zmax : exInput.zmax = cLight := by
  simp [exInput, WakeInput.zmax, listMax]
  norm_num [cLight]

theorem exInput_wakeLength : exInput.wakeLength = cLight := by
  rw [WakeInput.wakeLength, exInput_nt, exInput_dt, exInput_zmax, exInput_zmin]
  show (5 : ℚ) * 1 * cLight - (cLight - 0) - exInput.tinj * cLight = cLight
  show (5 : ℚ) * 1 * cLight - (cLight - 0) - 3 * cLight = cLight
  ring

theorem exInput_nsNeg : exInput.nsNeg = 3 := by
  rw [WakeInput.nsNeg, exInput_dt]
  show ((pyInt (exInput.tinj / 1)).toNat) = 3
  show ((pyInt ((3 : ℚ) / 1)).toNat) = 3
  norm_num [pyInt]
  decide

theorem exInput_nsPos : exInput.nsPos = 1 := by
  rw [WakeInput.nsPos, exInput_dt, exInput_wakeLength]
  show ((pyInt ((cLight : ℚ) / (1 * cLight))).toNat) = 1
  norm_num [pyInt, cLight]

theorem exInput_s :
    exInput.s = [-3 * cLight, -3 * cLight / 2, 0, 0] := by
  rw [WakeInput.s, exInput_nsNeg, exInput_nsPos]
  show linspace (-exInput.tinj * cLight) 0 3 ++ linspace 0 exInput.wakeLength 1 =
    [-3 * cLight, -3 * cLight / 2, 0, 0]
  rw [exInput_wakeLength]
  show linspace (-(3 : ℚ) * cLight) 0 3 ++ linspace 0 cLight 1 =
    [-3 * cLight, -3 * cLight / 2, 0, 0]
  norm_num [linspace, List.range_succ]
  ring

/-- C2 counterexample: at the concrete valid input `exInput`
(`t_inj = 3 > 0`, `dt = 1`, `ns_neg = 3`), the array `s` produced by
`calc_long_WP` is not strictly increasing and `s[ns_neg-1]` is `0`,
not negative: the negative segment `linspace(-t_inj*c, 0, ns_neg)`
ends with the value 0 and the positive segment starts with 0 again,
so the claimed zero-crossing shape fails. -/
theorem calc_long_WP_s_strict_cex :
    ¬ ((∀ m, m + 1 < exInput.s.length →
          exInput.s.getD m 0 < exInput.s.getD (m + 1) 0) ∧
       exInput.s.getD (exInput.nsNeg - 1) 0 < 0 ∧
       0 ≤ exInput.s.getD exInput.nsNeg 0) := by
  intro h
  have h21 := h.2.1
  rw [exInput_s, exInput_nsNeg] at h21
  simp at h21

/-- C2 amended: for every valid input with `t_inj > 0`,
`ns_neg ≥ 2`, `ns_pos ≥ 1` and positive wake length, the array `s` is
monotone non-decreasing, strictly increasing everywhere except at the
join, where the value 0 is duplicated: `s[ns_neg-2] < s[ns_neg-1] = 0
= s[ns_neg]`. -/
theorem calc_long_WP_s_monotone_join (d : WakeInput)
    (htinj : 0 < d.tinj) (hneg : 2 ≤ d.nsNeg) (hpos : 1 ≤ d.nsPos)
    (hwl : 0 < d.wakeLength) :
    (∀ m, m + 1 < d.s.length → d.s.getD m 0 ≤ d.s.getD (m + 1) 0) ∧
    d.s.getD (d.nsNeg - 1) 0 = 0 ∧
    d.s.getD d.nsNeg 0 = 0 ∧
    d.s.getD (d.nsNeg - 2) 0 < 0 ∧
    (∀ m, m + 1 < d.s.length → m + 1 ≠ d.nsNeg →
      d.s.getD m 0 < d.s.getD (m + 1) 0) := by
  have hA : -d.tinj * cLight < 0 := by
    have hc : (0 : ℚ) < cLight := by norm_num [cLight]
    nlinarith
  have hlast : d.s.getD (d.nsNeg - 1) 0 = 0 := by
    rw [wake_s_getD_left d (by omega)]
    exact linspace_getD_last _ _ hneg
  have hjoin : d.s.getD d.nsNeg 0 = 0 := by
    rw [wake_s_getD_right d (le_refl _), Nat.sub_self]
    exact linspace_getD_zero _ _ hpos
  have hstrict : ∀ m, m + 1 < d.s.length → m + 1 ≠ d.nsNeg →
      d.s.getD m 0 < d.s.getD (m + 1) 0 := by
    intro m hm hne
    rw [wake_s_length] at hm
    rcases Nat.lt_or_ge (m + 1) d.nsNeg with h1 | h1
    · rw [wake_s_getD_left d (by omega), wake_s_getD_left d h1]
      exact linspace_strict_adj _ _ hneg hA h1
    · have h2 : d.nsNeg < m + 1 := by omega
      have h3 : 2 ≤ d.nsPos := by omega
      rw [wake_s_getD_right d (by omega), wake_s_getD_right d (by omega)]
      have hidx : m + 1 - d.nsNeg = (m - d.nsNeg) + 1 := by omega
      rw [hidx]
      exact linspace_strict_adj _ _ h3 hwl (by omega)
  refine ⟨?_, hlast, hjoin, ?_, hstrict⟩
  · intro m hm
    by_cases he : m + 1 = d.nsNeg
    · have hm1 : m = d.nsNeg - 1 := by omega
      rw [he, hm1, hlast, hjoin]
    · exact le_of_lt (hstrict m hm he)
  · have h1 : d.nsNeg - 2 + 1 = d.nsNeg - 1 := by omega
    have := hstrict (d.nsNeg - 2) ?_ ?_
    · rw [h1] at this
      rw [hlast] at this
      exact this
    · rw [wake_s_length]
      omega
    · omega

/-- C2 amended, witnessed at the concrete input `exInput`
(`ns_neg = 3`, `ns_pos = 1`). -/
theorem calc_long_WP_s_monotone_join_witness :
    (0 < exInput.tinj ∧ 2 ≤ exInput.nsNeg ∧ 1 ≤ exInput.nsPos ∧
      0 < exInput.wakeLength) ∧
    ((∀ m, m + 1 < exInput.s.length →
        exInput.s.getD m 0 ≤ exInput.s.getD (m + 1) 0) ∧
     exInput.s.getD (exInput.nsNeg - 1) 0 = 0 ∧
     exInput.s.getD exInput.nsNeg 0 = 0 ∧
     exInput.s.getD (exInput.nsNeg - 2) 0 < 0 ∧
     (∀ m, m + 1 < exInput.s.length → m + 1 ≠ exInput.nsNeg →
       exInput.s.getD m 0 < exInput.s.getD (m + 1) 0)) :=
  ⟨⟨by norm_num [exInput], by norm_num [exInput_nsNeg], by norm_num [exInput_nsPos],
      by rw [exInput_wakeLength]; norm_num [cLight]⟩,
    calc_long_WP_s_monotone_join exInput (by norm_num [exInput])
      (by norm_num [exInput_nsNeg]) (by norm_num [exInput_nsPos])
      (by rw [exInput_wakeLength]; norm_num [cLight])⟩

theorem pyInt_of_nonneg {x : ℚ} (h : 0 ≤ x) : pyInt x = ⌊x⌋ := by
  rw [pyInt, if_neg (not_lt.2 h)]

theorem foldl_if_add (P : ℕ → Prop) [DecidablePred P] (g : ℕ → ℚ) (w0 : ℚ)
    (l : List ℕ) :
    l.foldl (fun acc k => if P k then acc + g k else acc) w0 =
      w0 + (l.map (fun k => if P k then g k else 0)).sum := by
  induction l generalizing w0 with
  | nil => simp
  | cons x xs ih =>
    rw [List.foldl_cons, ih, List.map_cons, List.sum_cons]
    by_cases h : P x
    · rw [if_pos h, if_pos h]
      ring
    · rw [if_neg h, if_neg h]
      ring

/-- C1: the inner accumulation of `calc_long_WP` at output index `n`
adds, on top of the incoming accumulator `w0`, exactly the
contributions `Ezi[k, it]*dzi` of the pairs with `ts[k,n] > 0`
strictly (a pair with `ts[k,n] = 0` contributes nothing), the time
index being `it = ⌊ts[k,n]/dt⌋ - 1` (one sample back, interpreted by
Python indexing); and the retarded time satisfies
`ts[k,n] = (zi[k]+s[n])/c - zmin/c - t[0] + t_inj`. -/
theorem calc_long_WP_gate_floor_index (d : WakeInput) (i j n : ℕ) (w0 : ℚ)
    (hdt : 0 < d.dt) :
    d.wpEntry i j w0 n =
      w0 + ((List.range d.nt).map (fun k =>
        if 0 < d.ts k n then
          d.Ezi i j k (pyIdx d.nt (⌊d.ts k n / d.dt⌋ - 1)) * d.dzi
        else 0)).sum ∧
    (∀ k, d.ts k n =
      (d.zi.getD k 0 + d.s.getD n 0) / cLight - d.zmin / cLight
        - d.t.getD 0 0 + d.tinj) := by
  constructor
  · rw [WakeInput.wpEntry,
      foldl_if_add (fun k => 0 < d.ts k n)
        (fun k => d.Ezi i j k (pyIdx d.nt (pyInt (d.ts k n / d.dt) - 1)) * d.dzi)
        w0 (List.range d.nt)]
    congr 1
    apply congrArg
    apply List.map_congr_left
    intro k _
    by_cases h : 0 < d.ts k n
    · rw [if_pos h, if_pos h,
        pyInt_of_nonneg (le_of_lt (div_pos h hdt))]
    · rw [if_neg h, if_neg h]
  · intro k
    rfl

/-- C1 witnessed at the concrete input `exInput` (`dt = 1 > 0`),
offset `(0,0)`, output index 0, zero incoming accumulator. -/
theorem calc_long_WP_gate_floor_index_witness :
    0 < exInput.dt ∧
    (exInput.wpEntry 0 0 0 0 =
      0 + ((List.range exInput.nt).map (fun k =>
        if 0 < exInput.ts k 0 then
          exInput.Ezi 0 0 k
            (pyIdx exInput.nt (⌊exInput.ts k 0 / exInput.dt⌋ - 1)) * exInput.dzi
        else 0)).sum ∧
    (∀ k, exInput.ts k 0 =
      (exInput.zi.getD k 0 + exInput.s.getD 0 0) / cLight
        - exInput.zmin / cLight - exInput.t.getD 0 0 + exInput.tinj)) :=
  ⟨by norm_num [exInput_dt],
    calc_long_WP_gate_floor_index exInput 0 0 0 0 (by norm_num [exInput_dt])⟩

/-- Value of the retarded time at the concrete input `exInput` for
`k = 1`, `n = 0`: strictly between 0 and `dt`. -/
theorem exInput_ts_one_zero : exInput.ts 1 0 = 1 / 4 := by
  rw [WakeInput.ts, exInput_s, exInput_zmin]
  have hzi : exInput.zi = linspace 0 cLight 5 := by
    rw [WakeInput.zi, exInput_zmin, exInput_zmax, exInput_nt]
  rw [hzi, linspace_getD 0 cLight (by norm_num) (by norm_num : (1 : ℕ) < 5)]
  show ((0 + (1 : ℚ) * (cLight - 0) / ((5 : ℚ) - 1)) + (-3 * cLight)) / cLight
      - 0 / cLight - exInput.t.getD 0 0 + exInput.tinj = 1 / 4
  show ((0 + (1 : ℚ) * (cLight - 0) / ((5 : ℚ) - 1)) + (-3 * cLight)) / cLight
      - 0 / cLight - 0 + 3 = 1 / 4
  norm_num [cLight]

/-- C10: whenever the retarded time lies strictly between 0 and one
time step, the computed index `it = int(ts/dt) - 1` is `-1`; under
Python negative indexing this addresses slot `nt - 1`, so the
accumulated sample is the interpolated field at the *last* timestep,
not at the first. -/
theorem calc_long_WP_wraparound (d : WakeInput) (k n : ℕ)
    (hnt : 1 ≤ d.nt) (h1 : 0 < d.ts k n) (h2 : d.ts k n < d.dt) :
    pyInt (d.ts k n / d.dt) - 1 = -1 ∧
    pyIdx d.nt (pyInt (d.ts k n / d.dt) - 1) = d.nt - 1 ∧
    (∀ i j, d.Ezi i j k (pyIdx d.nt (pyInt (d.ts k n / d.dt) - 1)) =
      d.Ezi i j k (d.nt - 1)) := by
  have hdt : 0 < d.dt := lt_trans h1 h2
  have hfl : pyInt (d.ts k n / d.dt) = 0 := by
    rw [pyInt_of_nonneg (le_of_lt (div_pos h1 hdt))]
    rw [Int.floor_eq_zero_iff]
    constructor
    · exact le_of_lt (div_pos h1 hdt)
    · rw [div_lt_one hdt]
      exact h2
  have hit : pyInt (d.ts k n / d.dt) - 1 = -1 := by
    rw [hfl]
    decide
  have hidx : pyIdx d.nt (pyInt (d.ts k n / d.dt) - 1) = d.nt - 1 := by
    rw [hit, pyIdx, if_pos (by norm_num)]
    omega
  exact ⟨hit, hidx, fun i j => by rw [hidx]⟩

/-- C10 witnessed at `exInput`, `k = 1`, `n = 0`, where
`ts = 1/4 ∈ (0, dt) = (0, 1)` and the wrapped index is `nt - 1 = 4`. -/
theorem calc_long_WP_wraparound_witness :
    (1 ≤ exInput.nt ∧ 0 < exInput.ts 1 0 ∧ exInput.ts 1 0 < exInput.dt) ∧
    (pyInt (exInput.ts 1 0 / exInput.dt) - 1 = -1 ∧
     pyIdx exInput.nt (pyInt (exInput.ts 1 0 / exInput.dt) - 1) = exInput.nt - 1 ∧
     (∀ i j, exInput.Ezi i j 1 (pyIdx exInput.nt (pyInt (exInput.ts 1 0 / exInput.dt) - 1)) =
       exInput.Ezi i j 1 (exInput.nt - 1))) :=
  ⟨⟨by norm_num [exInput_nt], by norm_num [exInput_ts_one_zero],
      by norm_num [exInput_ts_one_zero, exInput_dt]⟩,
    calc_long_WP_wraparound exInput 1 0 (by norm_num [exInput_nt])
      (by norm_num [exInput_ts_one_zero])
      (by norm_num [exInput_ts_one_zero, exInput_dt])⟩

/-- C4: if all 9 transverse slices of `WP_3d` are identical (no x/y
dependence), `calc_trans_WP` returns `WPx` and `WPy` that are exactly
zero at every index, for any `s` and any grid spacings. -/
theorem calc_trans_WP_zero_of_uniform (s : List ℚ) (WP3d : ℕ → ℕ → ℕ → ℚ)
    (dx dy : ℚ)
    (h : ∀ i j n, i < 3 → j < 3 → n < s.length → WP3d i j n = WP3d 1 1 n) :
    (calcTransWP s WP3d dx dy).1 = List.replicate s.length 0 ∧
    (calcTransWP s WP3d dx dy).2 = List.replicate s.length 0 := by
  have key : ∀ i j i2 j2 n, i < 3 → j < 3 → i2 < 3 → j2 < 3 → n < s.length →
      ((List.range n).map (fun k => WP3d i j k)).sum =
        ((List.range n).map (fun k => WP3d i2 j2 k)).sum := by
    intro i j i2 j2 n hi hj hi2 hj2 hn
    have e1 : (List.range n).map (fun k => WP3d i j k) =
        (List.range n).map (fun k => WP3d i2 j2 k) := by
      apply List.map_congr_left
      intro k hk
      have hkn : k < n := List.mem_range.1 hk
      rw [h i j k hi hj (by omega), h i2 j2 k hi2 hj2 (by omega)]
    rw [e1]
  constructor
  · rw [calcTransWP]
    dsimp only
    rw [List.eq_replicate_iff]
    constructor
    · simp
    · intro b hb
      obtain ⟨n, hn, rfl⟩ := List.mem_map.1 hb
      have hns : n < s.length := List.mem_range.1 hn
      rw [key 2 1 0 1 n (by omega) (by omega) (by omega) (by omega) hns]
      ring
  · rw [calcTransWP]
    dsimp only
    rw [List.eq_replicate_iff]
    constructor
    · simp
    · intro b hb
      obtain ⟨n, hn, rfl⟩ := List.mem_map.1 hb
      have hns : n < s.length := List.mem_range.1 hn
      rw [key 1 2 1 0 n (by omega) (by omega) (by omega) (by omega) hns]
      ring

/-- C4 witnessed with a constant synthetic `WP_3d` on a 3-point `s`. -/
theorem calc_trans_WP_zero_of_uniform_witness :
    (calcTransWP [0, 1, 2] (fun _ _ _ => 7) 1 1).1 =
      List.replicate ([0, 1, 2] : List ℚ).length 0 ∧
    (calcTransWP [0, 1, 2] (fun _ _ _ => 7) 1 1).2 =
      List.replicate ([0, 1, 2] : List ℚ).length 0 :=
  calc_trans_WP_zero_of_uniform [0, 1, 2] (fun _ _ _ => 7) 1 1
    (fun _ _ _ _ _ _ => rfl)

/-- C8: with the flag set, `FFT` prepends and appends exactly
`pad = ⌊r*Ns⌋` zeros to the resampled signal; with the flag unset the
transformed signal is the resampled signal itself. -/
theorem FFT_zeropad (Xt : List ℚ) (dt fmax r : ℚ)
    (hr : 0 ≤ r) (hdt : 0 ≤ dt) (hfmax : 0 ≤ fmax) :
    fftPadded Xt dt fmax r true =
      List.replicate (⌊r * fftNs Xt dt fmax⌋).toNat 0 ++
        fftResample Xt dt fmax ++
        List.replicate (⌊r * fftNs Xt dt fmax⌋).toNat 0 ∧
    fftPadded Xt dt fmax r false = fftResample Xt dt fmax := by
  have hdts : 0 ≤ fftDts fmax := by
    rw [fftDts]
    apply div_nonneg zero_le_one
    linarith
  have hNs : 0 ≤ fftNs Xt dt fmax := by
    rw [fftNs]
    apply div_nonneg (by positivity)
    exact div_nonneg hdts hdt
  constructor
  · rw [fftPadded]
    simp only [if_true]
    rw [pyInt_of_nonneg (mul_nonneg hr hNs)]
  · rw [fftPadded]
    simp

/-- C8 witnessed at `Xt = [0,1]`, `dt = 1`, `fmax = 1`, `r = 2`. -/
theorem FFT_zeropad_witness :
    ((0 : ℚ) ≤ 2 ∧ (0 : ℚ) ≤ 1) ∧
    (fftPadded [0, 1] 1 1 2 true =
      List.replicate (⌊(2 : ℚ) * fftNs [0, 1] 1 1⌋).toNat 0 ++
        fftResample [0, 1] 1 1 ++
        List.replicate (⌊(2 : ℚ) * fftNs [0, 1] 1 1⌋).toNat 0 ∧
    fftPadded [0, 1] 1 1 2 false = fftResample [0, 1] 1 1) :=
  ⟨⟨by norm_num, by norm_num⟩,
    FFT_zeropad [0, 1] 1 1 2 (by norm_num) (by norm_num) (by norm_num)⟩

/-- C7: the retained non-negative-frequency amplitudes of `FFT` are
scaled by `2/Ns` with `Ns = N·dt/dts`, then multiplied by the Parseval
factor `K = sqrt(Et/Ef)`, where `Et` is the time-domain energy of the
(possibly padded) resampled signal and `Ef` is the full-spectrum
energy divided by the number of frequency bins. -/
theorem FFT_scaling_parseval (F : List ℚ → List (ℚ × ℚ)) (Xt : List ℚ)
    (dt fmax r : ℚ) (flag : Bool) :
    (FFT F Xt dt fmax r flag).1 =
      (fftMasked F Xt dt fmax r flag).map (fun p =>
        (Real.sqrt (((((fftPadded Xt dt fmax r flag).map (fun x => x ^ 2)).sum /
              ((((F (fftPadded Xt dt fmax r flag)).map
                  (fun z => z.1 ^ 2 + z.2 ^ 2)).sum) /
                ((F (fftPadded Xt dt fmax r flag)).length : ℚ))) : ℚ) : ℝ) *
           ((2 * p.1.1 / ((Xt.length : ℚ) * dt / fftDts fmax) : ℚ) : ℝ),
         Real.sqrt (((((fftPadded Xt dt fmax r flag).map (fun x => x ^ 2)).sum /
              ((((F (fftPadded Xt dt fmax r flag)).map
                  (fun z => z.1 ^ 2 + z.2 ^ 2)).sum) /
                ((F (fftPadded Xt dt fmax r flag)).length : ℚ))) : ℚ) : ℝ) *
           ((2 * p.1.2 / ((Xt.length : ℚ) * dt / fftDts fmax) : ℚ) : ℝ))) := by
  have hNs : fftNs Xt dt fmax = (Xt.length : ℚ) * dt / fftDts fmax := by
    rw [fftNs, div_div_eq_mul_div]
  rw [FFT]
  dsimp only
  rw [fftXfPre, List.map_map]
  apply List.map_congr_left
  intro p _
  rw [Function.comp_apply, fftK, fftEt, fftEf, hNs]

/-- Linear interpolation over nodes that all carry the same value
returns that value. -/
theorem interpPts_const (x v : ℚ) :
    ∀ pts : List (ℚ × ℚ), pts ≠ [] → (∀ p ∈ pts, p.2 = v) →
      interpPts x pts = v
  | [], h, _ => absurd rfl h
  | [(a, b)], _, hc => by
    rw [interpPts]
    exact hc (a, b) (List.mem_singleton_self _)
  | (a1, b1) :: (a2, b2) :: rest, _, hc => by
    have h1 : b1 = v := hc (a1, b1) (List.mem_cons_self _ _)
    have h2 : b2 = v := hc (a2, b2) (List.mem_cons_of_mem _ (List.mem_cons_self _ _))
    rw [interpPts]
    by_cases hx1 : x ≤ a1
    · rw [if_pos hx1]
      exact h1
    · rw [if_neg hx1]
      by_cases hx2 : x ≤ a2
      · rw [if_pos hx2, h1, h2]
        ring
      · rw [if_neg hx2]
        exact interpPts_const x v ((a2, b2) :: rest) (List.cons_ne_nil _ _)
          (fun p hp => hc p (List.mem_cons_of_mem _ hp))

theorem arange_length_unit (N : ℕ) (dt : ℚ) (hdt : dt ≠ 0) :
    (arange 0 ((N : ℚ) * dt) dt).length = N := by
  rw [arange, List.length_map, List.length_range]
  rw [sub_zero, mul_div_assoc, div_self hdt, mul_one, Int.ceil_natCast]
  exact Int.toNat_natCast N

/-- C5 evaluation: the `FFT` resampling of `[0, 1]` with `dt = 1`,
`fmax = 1` (source grid `linspace(0, 2, 2)`). -/
theorem fftResample_cex_val : fftResample [0, 1] 1 1 = [0, 1/4, 1/2, 3/4] := by
  norm_num [fftResample, npInterp, arange, linspace, fftDts, interpPts,
    List.range_succ, Int.toNat_ofNat, Function.comp]
  have h4 : Int.toNat 4 = 4 := rfl
  rw [h4]
  norm_num [List.range_succ, Function.comp]

/-- C5 evaluation: the `DFT` resampling of `[0, 1]` with `dt = 1`,
`fmax = 1` (source grid `arange(0, 2, 1)`, clamped above 1). -/
theorem dftResample_cex_val : dftResample [0, 1] 1 1 = [0, 1/2, 1, 1] := by
  norm_num [dftResample, npInterp, arange, fftDts, interpPts,
    List.range_succ, Int.toNat_ofNat, Function.comp]
  have h4 : Int.toNat 4 = 4 := rfl
  rw [h4]
  norm_num [List.range_succ, Function.comp]

/-- C5 counterexample: on `Xt = [0, 1]`, `dt = 1`, `fmax = 1`, the
resampling steps of `FFT` and `DFT` produce different resampled
signals: the `FFT` variant interpolates on `linspace(0, T, N)` (step
`T/(N-1)`, endpoint included) but the `DFT` variant on
`arange(0, T, dt)` (step `dt`, endpoint excluded). -/
theorem FFT_DFT_resample_cex : fftResample [0, 1] 1 1 ≠ dftResample [0, 1] 1 1 := by
  rw [fftResample_cex_val, dftResample_cex_val]
  intro h
  have := List.head_eq_of_cons_eq (List.tail_eq_of_cons_eq h)
  norm_num at this

/-- C5 amended: the two resampling steps share the target grid
`arange(0, N·dt, dts)` and the linear interpolation, but differ in
the source grid (`linspace` vs `arange`); consequently they agree on
constant signals (while differing in general). -/
theorem FFT_DFT_resample_const (N : ℕ) (v dt fmax : ℚ) (hdt : dt ≠ 0) :
    fftResample (List.replicate N v) dt fmax =
      dftResample (List.replicate N v) dt fmax := by
  rw [fftResample, dftResample, npInterp, npInterp, List.length_replicate]
  apply List.map_congr_left
  intro x _
  rcases Nat.eq_zero_or_pos N with h0 | hpos
  · subst h0
    rw [List.replicate_zero, List.zip_nil_right, List.zip_nil_right]
  · have hlF : (linspace 0 ((N : ℚ) * dt) N).length = N := linspace_length _ _ _
    have hlD : (arange 0 ((N : ℚ) * dt) dt).length = N := arange_length_unit N dt hdt
    have hzF : ((linspace 0 ((N : ℚ) * dt) N).zip (List.replicate N v)) ≠ [] := by
      intro h
      have := congrArg List.length h
      rw [List.length_zip, hlF, List.length_replicate] at this
      simp at this
      omega
    have hzD : ((arange 0 ((N : ℚ) * dt) dt).zip (List.replicate N v)) ≠ [] := by
      intro h
      have := congrArg List.length h
      rw [List.length_zip, hlD, List.length_replicate] at this
      simp at this
      omega
    rw [interpPts_const x v _ hzF
        (fun p hp => List.eq_of_mem_replicate (List.of_mem_zip hp).2),
      interpPts_const x v _ hzD
        (fun p hp => List.eq_of_mem_replicate (List.of_mem_zip hp).2)]

/-- C5 amended, witnessed on the constant signal `[1, 1]` with
`dt = 1 ≠ 0`, `fmax = 1`. -/
theorem FFT_DFT_resample_const_witness :
    (1 : ℚ) ≠ 0 ∧
    fftResample (List.replicate 2 (1 : ℚ)) 1 1 =
      dftResample (List.replicate 2 (1 : ℚ)) 1 1 :=
  ⟨by norm_num, FFT_DFT_resample_const 2 1 1 1 (by norm_num)⟩

/-! ## Even/odd slot selection

Closed forms for the boolean-mask selections used by `DFT`. -/

/-- Elements at even positions of a list. -/
def evens {α : Type} : List α → List α
  | [] => []
  | [x] => [x]
  | x :: _ :: rest => x :: evens rest

/-- Elements at odd positions of a list. -/
def odds {α : Type} : List α → List α
  | [] => []
  | _ :: rest => evens rest

/-- Two-step structural induction on lists. -/
theorem listPairInduction {α : Type} {P : List α → Prop} (h0 : P [])
    (h1 : ∀ x, P [x])
    (h2 : ∀ x y rest, P rest → P (x :: y :: rest)) : ∀ l, P l
  | [] => h0
  | [x] => h1 x
  | x :: y :: rest => h2 x y rest (listPairInduction h0 h1 h2 rest)

theorem evens_cons_cons {α : Type} (x y : α) (rest : List α) :
    evens (x :: y :: rest) = x :: evens rest := rfl

theorem odds_cons {α : Type} (x : α) (rest : List α) :
    odds (x :: rest) = evens rest := rfl

theorem length_evens {α : Type} : ∀ l : List α,
    (evens l).length = (l.length + 1) / 2 := by
  apply listPairInduction
  · simp [evens]
  · intro x
    simp [evens]
  · intro x y rest ih
    rw [evens_cons_cons, List.length_cons, ih]
    simp only [List.length_cons]
    omega

theorem length_odds {α : Type} (l : List α) :
    (odds l).length = l.length / 2 := by
  cases l with
  | nil => simp [odds]
  | cons x rest =>
    rw [odds_cons, length_evens]
    simp only [List.length_cons]

theorem getD_evens {α : Type} (d : α) :
    ∀ (i : ℕ) (l : List α), 2 * i < l.length →
      (evens l).getD i d = l.getD (2 * i) d := by
  intro i
  induction i with
  | zero =>
    intro l hl
    match l with
    | [x] => rfl
    | x :: y :: rest => rfl
  | succ i ih =>
    intro l hl
    match l with
    | [x] => simp at hl
    | x :: y :: rest =>
      rw [evens_cons_cons]
      have h2 : 2 * (i + 1) = (2 * i + 1) + 1 := by omega
      rw [List.getD_cons_succ, h2, List.getD_cons_succ, List.getD_cons_succ]
      have hr : 2 * i < rest.length := by
        simp only [List.length_cons] at hl
        omega
      exact ih rest hr

theorem getD_odds {α : Type} (d : α) (i : ℕ) (l : List α)
    (h : 2 * i + 1 < l.length) :
    (odds l).getD i d = l.getD (2 * i + 1) d := by
  match l with
  | [] => simp at h
  | x :: rest =>
    rw [odds_cons, List.getD_cons_succ]
    apply getD_evens
    simp only [List.length_cons] at h
    omega

theorem getD_tail {α : Type} (d : α) (i : ℕ) (l : List α) :
    l.tail.getD i d = l.getD (i + 1) d := by
  cases l with
  | nil => rfl
  | cons x rest => rw [List.tail_cons, List.getD_cons_succ]

theorem getD_dropLast {α : Type} (d : α) (i : ℕ) (l : List α)
    (h : i + 1 < l.length) :
    l.dropLast.getD i d = l.getD i d := by
  have h1 : i < l.dropLast.length := by
    rw [List.length_dropLast]
    omega
  have h2 : i < l.length := by omega
  rw [List.getD_eq_getElem l d h2, List.getD_eq_getElem _ d h1]
  exact List.getElem_dropLast l i h1

theorem maskSel_nil {α : Type} (mask : List Bool) :
    maskSel ([] : List α) mask = [] := rfl

theorem maskSel_cons_true {α : Type} (x : α) (xs : List α) (m : List Bool) :
    maskSel (x :: xs) (true :: m) = x :: maskSel xs m := by
  simp [maskSel]

theorem maskSel_cons_false {α : Type} (x : α) (xs : List α) (m : List Bool) :
    maskSel (x :: xs) (false :: m) = maskSel xs m := by
  simp [maskSel]

theorem succ_parity (i : ℕ) : ((i + 1) % 2 == 0) = !(i % 2 == 0) := by
  rcases Nat.mod_two_eq_zero_or_one i with h | h
  · have h1 : (i + 1) % 2 = 1 := by omega
    rw [h, h1]
    rfl
  · have h1 : (i + 1) % 2 = 0 := by omega
    rw [h, h1]
    rfl

theorem boolMaskEven_succ (n : ℕ) :
    boolMaskEven (n + 1) = true :: (boolMaskEven n).map not := by
  rw [boolMaskEven, List.range_succ_eq_map, List.map_cons]
  congr 1
  rw [List.map_map, boolMaskEven, List.map_map]
  apply List.map_congr_left
  intro i _
  simp only [Function.comp_apply]
  exact succ_parity i

theorem boolMaskEven_succ_succ (n : ℕ) :
    boolMaskEven (n + 2) = true :: false :: boolMaskEven n := by
  rw [boolMaskEven_succ (n + 1), boolMaskEven_succ n, List.map_cons,
    Bool.not_true, List.map_map]
  have hnn : (not ∘ not) = fun b : Bool => b := by
    funext b
    simp
  simp [hnn]

theorem boolMaskEven_length (n : ℕ) : (boolMaskEven n).length = n := by
  rw [boolMaskEven, List.length_map, List.length_range]

theorem maskSel_even {α : Type} : ∀ l : List α,
    maskSel l (boolMaskEven l.length) = evens l := by
  apply listPairInduction
  · rfl
  · intro x
    rfl
  · intro x y rest ih
    have hl : (x :: y :: rest).length = rest.length + 2 := by
      simp only [List.length_cons]
    rw [hl, boolMaskEven_succ_succ, maskSel_cons_true, maskSel_cons_false, ih,
      evens_cons_cons]

theorem maskSel_odd {α : Type} : ∀ l : List α,
    maskSel l ((boolMaskEven l.length).map not) = odds l := by
  apply listPairInduction
  · rfl
  · intro x
    rfl
  · intro x y rest ih
    have hl : (x :: y :: rest).length = rest.length + 2 := by
      simp only [List.length_cons]
    rw [hl, boolMaskEven_succ_succ, List.map_cons, List.map_cons]
    rw [Bool.not_true, Bool.not_false, maskSel_cons_false, maskSel_cons_true, ih]
    have : odds (x :: y :: rest) = y :: odds rest := by
      cases rest <;> rfl
    rw [this]

theorem maskSel_im {α : Type} (l : List α) :
    maskSel l (dftIm l.length) = odds l.tail := by
  cases l with
  | nil => rfl
  | cons x rest =>
    have hl : (x :: rest).length = rest.length + 1 := rfl
    rw [dftIm, hl, boolMaskEven_succ, setFirst, maskSel_cons_false,
      maskSel_odd, List.tail_cons]

theorem maskSel_ne_nil {α : Type} :
    ∀ (mask : List Bool) (l : List α), l.length = mask.length →
      mask.getLast? = some true → maskSel l mask ≠ [] := by
  intro mask
  induction mask with
  | nil =>
    intro l _ hlast
    simp at hlast
  | cons b m ih =>
    intro l hlen hlast
    match l with
    | [] => simp at hlen
    | x :: ls =>
      cases m with
      | nil =>
        have hb : b = true := by
          simp at hlast
          exact hlast
        subst hb
        rw [maskSel_cons_true]
        exact List.cons_ne_nil _ _
      | cons c m2 =>
        have hlast2 : (c :: m2).getLast? = some true := by
          rwa [List.getLast?_cons_cons] at hlast
        have hlen2 : ls.length = (c :: m2).length := by
          simp only [List.length_cons] at hlen
          simp only [List.length_cons]
          omega
        cases b with
        | true =>
          rw [maskSel_cons_true]
          exact List.cons_ne_nil _ _
        | false =>
          rw [maskSel_cons_false]
          exact ih ls hlen2 hlast2

theorem maskSel_setLast_false {α : Type} :
    ∀ (mask : List Bool) (l : List α), l.length = mask.length →
      mask.getLast? = some true →
      maskSel l (setLast mask false) = (maskSel l mask).dropLast := by
  intro mask
  induction mask with
  | nil =>
    intro l _ hlast
    simp at hlast
  | cons b m ih =>
    intro l hlen hlast
    match l with
    | [] => simp at hlen
    | x :: ls =>
      cases m with
      | nil =>
        have hb : b = true := by
          simp at hlast
          exact hlast
        subst hb
        have hls : ls = [] := by
          simp only [List.length_cons, List.length_nil] at hlen
          exact List.length_eq_zero.1 (by omega)
        subst hls
        rw [setLast, maskSel_cons_false, maskSel_cons_true, maskSel_nil]
        rfl
      | cons c m2 =>
        have hlast2 : (c :: m2).getLast? = some true := by
          rwa [List.getLast?_cons_cons] at hlast
        have hlen2 : ls.length = (c :: m2).length := by
          simp only [List.length_cons] at hlen
          simp only [List.length_cons]
          omega
        have hne : maskSel ls (c :: m2) ≠ [] :=
          maskSel_ne_nil (c :: m2) ls hlen2 hlast2
        cases b with
        | true =>
          rw [setLast, maskSel_cons_true, maskSel_cons_true,
            ih ls hlen2 hlast2, List.dropLast_cons_of_ne_nil hne]
        | false =>
          rw [setLast, maskSel_cons_false, maskSel_cons_false,
            ih ls hlen2 hlast2]

theorem boolMaskEven_getLast? (n : ℕ) :
    (boolMaskEven (n + 1)).getLast? = some (n % 2 == 0) := by
  rw [boolMaskEven, List.range_succ, List.map_append, List.map_singleton,
    List.getLast?_append]
  rfl

/-- Closed form of the `Re` mask selection of `DFT` for even `Nf`:
the odd-position entries with the last one (the Nyquist slot)
dropped. -/
theorem maskSel_re_even {α : Type} (l : List α) (h2 : 2 ≤ l.length)
    (heven : l.length % 2 = 0) :
    maskSel l (dftRe l.length) = (odds l).dropLast := by
  rw [dftRe, if_pos heven]
  have hlast : ((boolMaskEven l.length).map not).getLast? = some true := by
    obtain ⟨m, hm⟩ : ∃ m, l.length = m + 1 := ⟨l.length - 1, by omega⟩
    rw [hm, List.getLast?_map, boolMaskEven_getLast? m]
    have hmod : m % 2 = 1 := by omega
    rw [hmod]
    rfl
  rw [maskSel_setLast_false _ l (by rw [List.length_map, boolMaskEven_length])
      hlast,
    maskSel_odd]

/-- Closed form of the `Re` mask selection of `DFT` for odd `Nf`:
all odd-position entries. -/
theorem maskSel_re_odd {α : Type} (l : List α) (hodd : l.length % 2 = 1) :
    maskSel l (dftRe l.length) = odds l := by
  rw [dftRe, if_neg (by omega), maskSel_odd]

theorem getD_zip {α β : Type} (da : α) (db : β) :
    ∀ (i : ℕ) (a : List α) (b : List β), i < a.length → i < b.length →
      (a.zip b).getD i (da, db) = (a.getD i da, b.getD i db) := by
  intro i
  induction i with
  | zero =>
    intro a b ha hb
    match a, b with
    | x :: a2, y :: b2 => rfl
  | succ i ih =>
    intro a b ha hb
    match a, b with
    | x :: a2, y :: b2 =>
      rw [List.zip_cons_cons, List.getD_cons_succ, List.getD_cons_succ,
        List.getD_cons_succ]
      exact ih a2 b2 (by simpa using ha) (by simpa using hb)

/-- C6: for every packed real-FFT coefficient array of length `Nf`
(either parity), the reconstructed complex spectrum `Z` satisfies the
same semantics: `Z[0]` is the purely real DC coefficient, every
`Z[m]` with `m ≥ 1` pairs the packed real part at slot `2m-1` with
the packed imaginary part at slot `2m`, `Z` has `⌈Nf/2⌉` entries, and
for even `Nf` the packed slot `Nf-1` (the purely real Nyquist bin) is
beyond every referenced index, hence dropped and never paired. -/
theorem DFT_unpack_semantics (Xf : List ℚ) (Nf : ℕ) (hNf : 1 ≤ Nf)
    (hlen : Xf.length = Nf) :
    (dftZ Xf Nf).getD 0 (0, 0) = (Xf.getD 0 0, 0) ∧
    (∀ m, 1 ≤ m → m < (dftZ Xf Nf).length →
      (dftZ Xf Nf).getD m (0, 0) = (Xf.getD (2 * m - 1) 0, Xf.getD (2 * m) 0)) ∧
    (dftZ Xf Nf).length = (Nf + 1) / 2 ∧
    (Nf % 2 = 0 → 2 * ((dftZ Xf Nf).length - 1) ≤ Nf - 2) := by
  subst hlen
  have hIm : maskSel Xf (dftIm Xf.length) = odds Xf.tail := maskSel_im Xf
  have hImLen : (maskSel Xf (dftIm Xf.length)).length = (Xf.length - 1) / 2 := by
    rw [hIm, length_odds, List.length_tail]
  have hReLen : (maskSel Xf (dftRe Xf.length)).length = (Xf.length - 1) / 2 := by
    rcases Nat.mod_two_eq_zero_or_one Xf.length with hp | hp
    · have h2 : 2 ≤ Xf.length := by omega
      rw [maskSel_re_even Xf h2 hp, List.length_dropLast, length_odds]
      omega
    · rw [maskSel_re_odd Xf hp, length_odds]
      omega
  have hZlen : (dftZ Xf Xf.length).length = (Xf.length + 1) / 2 := by
    rw [dftZ, List.length_cons, List.length_zip, hReLen, hImLen]
    omega
  refine ⟨rfl, ?_, hZlen, ?_⟩
  · intro m hm hmlen
    obtain ⟨j, rfl⟩ : ∃ j, m = j + 1 := ⟨m - 1, by omega⟩
    rw [hZlen] at hmlen
    have hj : j < (Xf.length - 1) / 2 := by omega
    rw [dftZ, List.getD_cons_succ,
      getD_zip 0 0 j _ _ (by rw [hReLen]; exact hj) (by rw [hImLen]; exact hj)]
    have hImV : (maskSel Xf (dftIm Xf.length)).getD j 0 = Xf.getD (2 * (j + 1)) 0 := by
      rw [hIm, getD_odds 0 j Xf.tail (by rw [List.length_tail]; omega),
        getD_tail]
      congr 1
    have hReV : (maskSel Xf (dftRe Xf.length)).getD j 0 =
        Xf.getD (2 * (j + 1) - 1) 0 := by
      rcases Nat.mod_two_eq_zero_or_one Xf.length with hp | hp
      · have h2 : 2 ≤ Xf.length := by omega
        rw [maskSel_re_even Xf h2 hp,
          getD_dropLast 0 j _ (by rw [length_odds]; omega),
          getD_odds 0 j Xf (by omega)]
        congr 1
      · rw [maskSel_re_odd Xf hp, getD_odds 0 j Xf (by omega)]
        congr 1
    rw [hImV, hReV]
  · intro hp
    rw [hZlen]
    omega

/-- C6 witnessed at the even size `Nf = 6` on the packed array
`[10, 1, 2, 3, 4, 5]` (reconstructed spectrum
`[(10,0), (1,2), (3,4)]`, slot 5 dropped). -/
theorem DFT_unpack_semantics_witness :
    (1 ≤ 6 ∧ ([10, 1, 2, 3, 4, 5] : List ℚ).length = 6) ∧
    ((dftZ [10, 1, 2, 3, 4, 5] 6).getD 0 (0, 0) =
        (([10, 1, 2, 3, 4, 5] : List ℚ).getD 0 0, 0) ∧
     (∀ m, 1 ≤ m → m < (dftZ [10, 1, 2, 3, 4, 5] 6).length →
       (dftZ [10, 1, 2, 3, 4, 5] 6).getD m (0, 0) =
         (([10, 1, 2, 3, 4, 5] : List ℚ).getD (2 * m - 1) 0,
          ([10, 1, 2, 3, 4, 5] : List ℚ).getD (2 * m) 0)) ∧
     (dftZ [10, 1, 2, 3, 4, 5] 6).length = (6 + 1) / 2 ∧
     (6 % 2 = 0 → 2 * ((dftZ [10, 1, 2, 3, 4, 5] 6).length - 1) ≤ 6 - 2)) :=
  ⟨⟨by omega, by simp⟩,
    DFT_unpack_semantics [10, 1, 2, 3, 4, 5] 6 (by omega) (by simp)⟩

/-! ## Frequency-axis invariants -/

theorem map_snd_filter_zip {α : Type} :
    ∀ (a : List α) (b : List ℚ), a.length = b.length →
      (((a.zip b).filter (fun p => 0 ≤ p.2)).map Prod.snd) =
        b.filter (fun x => 0 ≤ x) := by
  intro a
  induction a with
  | nil =>
    intro b hb
    have : b = [] := List.length_eq_zero.1 (by simp at hb; omega)
    subst this
    rfl
  | cons x a2 ih =>
    intro b hb
    match b with
    | [] => simp at hb
    | y :: b2 =>
      rw [List.zip_cons_cons, List.filter_cons, List.filter_cons]
      have hlen2 : a2.length = b2.length := by
        simp only [List.length_cons] at hb
        omega
      by_cases hy : 0 ≤ y
      · rw [if_pos (by simp [hy]), if_pos (by simp [hy]), List.map_cons,
          ih b2 hlen2]
      · rw [if_neg (by simp [hy]), if_neg (by simp [hy])]
        exact ih b2 hlen2

theorem fftfreq_filter_nonneg (n : ℕ) (d : ℚ) (hn : 1 ≤ n) (hd : 0 < d) :
    (fftfreq n d).filter (fun x => 0 ≤ x) =
      (List.range ((n + 1) / 2)).map (fun k : ℕ => (k : ℚ) / (n * d)) := by
  have hnd : 0 < (n : ℚ) * d := by positivity
  have hsplit : n = (n + 1) / 2 + (n - (n + 1) / 2) := by omega
  rw [fftfreq]
  rw [show List.range n = List.range ((n + 1) / 2) ++
      (List.range (n - (n + 1) / 2)).map ((n + 1) / 2 + ·) by
    conv_lhs => rw [hsplit]
    exact List.range_add _ _]
  rw [List.map_append, List.filter_append, List.map_map]
  have h1 : (List.range ((n + 1) / 2)).map
      (fun k : ℕ => if k < (n + 1) / 2 then (k : ℚ) / (n * d)
        else ((k : ℚ) - n) / (n * d)) =
      (List.range ((n + 1) / 2)).map (fun k : ℕ => (k : ℚ) / (n * d)) := by
    apply List.map_congr_left
    intro k hk
    rw [if_pos (List.mem_range.1 hk)]
  rw [h1]
  have h2 : ((List.range ((n + 1) / 2)).map
      (fun k : ℕ => (k : ℚ) / (n * d))).filter (fun x => 0 ≤ x) =
      (List.range ((n + 1) / 2)).map (fun k : ℕ => (k : ℚ) / (n * d)) := by
    apply List.filter_eq_self.2
    intro x hx
    obtain ⟨k, _, rfl⟩ := List.mem_map.1 hx
    have : (0 : ℚ) ≤ (k : ℚ) / ((n : ℚ) * d) := by positivity
    exact decide_eq_true this
  have h3 : ((List.range (n - (n + 1) / 2)).map
      ((fun k : ℕ => if k < (n + 1) / 2 then (k : ℚ) / (n * d)
        else ((k : ℚ) - n) / (n * d)) ∘ ((n + 1) / 2 + ·))).filter
      (fun x => 0 ≤ x) = [] := by
    apply List.filter_eq_nil_iff.2
    intro x hx
    obtain ⟨i, hi, rfl⟩ := List.mem_map.1 hx
    have hi2 : i < n - (n + 1) / 2 := List.mem_range.1 hi
    simp only [Function.comp_apply, decide_eq_true_eq]
    rw [if_neg (by omega : ¬((n + 1) / 2 + i < (n + 1) / 2))]
    push_neg
    have hnum : (((n + 1) / 2 + i : ℕ) : ℚ) - n < 0 := by
      have hlt : ((n + 1) / 2 + i) < n := by omega
      have : (((n + 1) / 2 + i : ℕ) : ℚ) < (n : ℚ) := by exact_mod_cast hlt
      linarith
    exact div_neg_of_neg_of_pos hnum hnd
  rw [h2, h3, List.append_nil]

theorem fftPadded_length_pos (Xt : List ℚ) (dt fmax r : ℚ) (flag : Bool)
    (hXt : Xt ≠ []) (hdt : 0 < dt) (hfmax : 0 < fmax) :
    0 < (fftPadded Xt dt fmax r flag).length := by
  have hXs : 0 < (fftResample Xt dt fmax).length := by
    rw [fftResample, npInterp, List.length_map, arange, List.length_map,
      List.length_range]
    have hN : 0 < Xt.length := List.length_pos.2 hXt
    have hdts : 0 < fftDts fmax := by
      rw [fftDts]
      positivity
    have harg : 0 < ((Xt.length : ℚ) * dt - 0) / fftDts fmax := by
      apply div_pos _ hdts
      have : 0 < (Xt.length : ℚ) := by exact_mod_cast hN
      nlinarith
    have := Int.ceil_pos.2 harg
    omega
  rw [fftPadded]
  cases flag with
  | true =>
    simp only [if_true]
    rw [List.length_append, List.length_append]
    omega
  | false =>
    simpa using hXs

theorem maskSel_subset {α : Type} (l : List α) (mask : List Bool) :
    ∀ x ∈ maskSel l mask, x ∈ l := by
  intro x hx
  rw [maskSel] at hx
  obtain ⟨p, hp, rfl⟩ := List.mem_map.1 hx
  exact (List.of_mem_zip (List.mem_of_mem_filter hp)).1

theorem rfftfreq_length (n : ℕ) (d : ℚ) : (rfftfreq n d).length = n := by
  rw [rfftfreq, List.length_map, List.length_range]

theorem maskSel_im_length (f : List ℚ) :
    (maskSel f (dftIm f.length)).length = (f.length - 1) / 2 := by
  rw [maskSel_im, length_odds, List.length_tail]

theorem maskSel_re_length (f : List ℚ) (h1 : 1 ≤ f.length) :
    (maskSel f (dftRe f.length)).length = (f.length - 1) / 2 := by
  rcases Nat.mod_two_eq_zero_or_one f.length with hp | hp
  · rw [maskSel_re_even f (by omega) hp, List.length_dropLast, length_odds]
    omega
  · rw [maskSel_re_odd f hp, length_odds]
    omega

theorem dftZ_length (Xf : List ℚ) (Nf : ℕ) (h1 : 1 ≤ Nf)
    (hlen : Xf.length = Nf) : (dftZ Xf Nf).length = (Nf + 1) / 2 := by
  subst hlen
  rw [dftZ, List.length_cons, List.length_zip,
    maskSel_re_length Xf h1, maskSel_im_length Xf]
  omega

theorem dft_sel_getD (Nf : ℕ) (d : ℚ) (j : ℕ) (hj : j < (Nf - 1) / 2) :
    (maskSel (rfftfreq Nf d) (dftIm Nf)).getD j 0 =
      ((j + 1 : ℕ) : ℚ) / (Nf * d) := by
  have hfl : (rfftfreq Nf d).length = Nf := rfftfreq_length Nf d
  rw [show dftIm Nf = dftIm (rfftfreq Nf d).length by rw [hfl], maskSel_im,
    getD_odds 0 j _ (by rw [List.length_tail, hfl]; omega), getD_tail, rfftfreq,
    getD_map_range _ 0 (by omega : 2 * j + 1 + 1 < Nf)]
  congr 2
  omega

theorem fftFOut_eq (F : List ℚ → List (ℚ × ℚ)) (Xt : List ℚ)
    (dt fmax r : ℚ) (flag : Bool) :
    fftFOut F Xt dt fmax r flag =
      (fftfreq (F (fftPadded Xt dt fmax r flag)).length (fftDts fmax)).filter
        (fun x => 0 ≤ x) := by
  rw [fftFOut, fftMasked]
  exact map_snd_filter_zip _ _
    (by rw [fftfreq, List.length_map, List.length_range])

/-- C9: both transforms return `(Xf, f)` of equal length with every
frequency non-negative, strictly ascending frequencies, and first
frequency bin exactly 0 (so the DC bin appears exactly once). -/
theorem spectrum_dc_first_ascending
    (F : List ℚ → List (ℚ × ℚ)) (R : List ℚ → ℕ → List ℚ)
    (Xt : List ℚ) (dt fmax r : ℚ) (flag : Bool) (Nf : ℕ)
    (hF : ∀ l, (F l).length = l.length)
    (hR : (R (dftResample Xt dt fmax) Nf).length = Nf)
    (hXt : Xt ≠ []) (hdt : 0 < dt) (hfmax : 0 < fmax) (hNf : 1 ≤ Nf) :
    ((FFT F Xt dt fmax r flag).1.length = (FFT F Xt dt fmax r flag).2.length ∧
     (FFT F Xt dt fmax r flag).2.head? = some 0 ∧
     (∀ x ∈ (FFT F Xt dt fmax r flag).2, 0 ≤ x) ∧
     (FFT F Xt dt fmax r flag).2.Pairwise (· < ·)) ∧
    ((DFT R Xt dt fmax Nf).1.length = (DFT R Xt dt fmax Nf).2.length ∧
     (DFT R Xt dt fmax Nf).2.head? = some 0 ∧
     (∀ x ∈ (DFT R Xt dt fmax Nf).2, 0 ≤ x) ∧
     (DFT R Xt dt fmax Nf).2.Pairwise (· < ·)) := by
  have hdts : 0 < fftDts fmax := by
    rw [fftDts]
    positivity
  constructor
  · -- FFT half
    have hnpos : 1 ≤ (F (fftPadded Xt dt fmax r flag)).length := by
      rw [hF]
      exact fftPadded_length_pos Xt dt fmax r flag hXt hdt hfmax
    set n := (F (fftPadded Xt dt fmax r flag)).length with hn_def
    have h2 : (FFT F Xt dt fmax r flag).2 =
        (List.range ((n + 1) / 2)).map
          (fun k : ℕ => (k : ℚ) / (n * fftDts fmax)) := by
      show fftFOut F Xt dt fmax r flag = _
      rw [fftFOut_eq, fftfreq_filter_nonneg n _ hnpos hdts]
    have hc : 0 < (n : ℚ) * fftDts fmax := by
      have : 0 < (n : ℚ) := by exact_mod_cast hnpos
      positivity
    refine ⟨?_, ?_, ?_, ?_⟩
    · show ((fftXfPre F Xt dt fmax r flag).map _).length =
        (fftFOut F Xt dt fmax r flag).length
      rw [List.length_map, fftXfPre, fftFOut, List.length_map, List.length_map]
    · rw [h2]
      obtain ⟨p, hp⟩ : ∃ p, (n + 1) / 2 = p + 1 := ⟨(n + 1) / 2 - 1, by omega⟩
      rw [hp, List.range_succ_eq_map, List.map_cons, List.head?_cons]
      norm_num
    · rw [h2]
      intro x hx
      obtain ⟨k, _, rfl⟩ := List.mem_map.1 hx
      positivity
    · rw [h2]
      apply List.Pairwise.map
      · intro a b hab
        rw [div_lt_div_iff_of_pos_right hc]
        exact_mod_cast hab
      · exact List.pairwise_lt_range _
  · -- DFT half
    have hone : (DFT R Xt dt fmax Nf).2 =
        dftZf (rfftfreq Nf (fftDts fmax)) Nf := by
      show dftZf (rfftfreq (R (dftResample Xt dt fmax) Nf).length
        (fftDts fmax)) Nf = _
      rw [hR]
    have hSelLen : (maskSel (rfftfreq Nf (fftDts fmax)) (dftIm Nf)).length =
        (Nf - 1) / 2 := by
      rw [show dftIm Nf = dftIm (rfftfreq Nf (fftDts fmax)).length by
          rw [rfftfreq_length],
        maskSel_im_length, rfftfreq_length]
    have hcnd : 0 < (Nf : ℚ) * fftDts fmax := by
      have : 0 < (Nf : ℚ) := by exact_mod_cast hNf
      positivity
    refine ⟨?_, ?_, ?_, ?_⟩
    · have h1' : (DFT R Xt dt fmax Nf).1.length =
          (dftZ (R (dftResample Xt dt fmax) Nf) Nf).length := by
        show ((dftZ (R (dftResample Xt dt fmax) Nf) Nf).map _).length = _
        rw [List.length_map]
      rw [h1', dftZ_length _ _ hNf hR, hone, dftZf, List.length_cons, hSelLen]
      omega
    · rw [hone, dftZf, List.head?_cons]
    · rw [hone, dftZf]
      intro x hx
      rcases List.mem_cons.1 hx with h0 | hmem
      · rw [h0]
      · have hxin : x ∈ rfftfreq Nf (fftDts fmax) :=
          maskSel_subset _ _ x hmem
        rw [rfftfreq] at hxin
        obtain ⟨k, _, rfl⟩ := List.mem_map.1 hxin
        positivity
    · rw [hone, dftZf]
      rw [List.pairwise_cons]
      constructor
      · intro y hy
        obtain ⟨j, hj, rfl⟩ := List.mem_iff_getElem.1 hy
        rw [← List.getD_eq_getElem _ 0 hj]
        rw [dft_sel_getD Nf (fftDts fmax) j (by rw [← hSelLen]; exact hj)]
        positivity
      · rw [List.pairwise_iff_getElem]
        intro i j hi hj hij
        rw [← List.getD_eq_getElem _ 0 hi, ← List.getD_eq_getElem _ 0 hj,
          dft_sel_getD Nf (fftDts fmax) i (by rw [← hSelLen]; exact hi),
          dft_sel_getD Nf (fftDts fmax) j (by rw [← hSelLen]; exact hj),
          div_lt_div_iff_of_pos_right hcnd]
        exact_mod_cast Nat.add_lt_add_right hij 1

/-- C9 witnessed with the concrete kernels
`F = map (x ↦ (x,0))`, `R = (Xs, n) ↦ replicate n 1` on
`Xt = [0,1]`, `dt = 1`, `fmax = 1`, `r = 2`, padding on, `Nf = 4`. -/
theorem spectrum_dc_first_ascending_witness :
    ((∀ l : List ℚ, ((l.map (fun x => (x, 0))) : List (ℚ × ℚ)).length = l.length) ∧
     ((fun (_ : List ℚ) (n : ℕ) => (List.replicate n (1 : ℚ)))
        (dftResample [0, 1] 1 1) 4).length = 4 ∧
     ([0, 1] : List ℚ) ≠ [] ∧ (0 : ℚ) < 1 ∧ (1 : ℕ) ≤ 4) ∧
    (((FFT (fun l => l.map (fun x => (x, 0))) [0, 1] 1 1 2 true).1.length =
        (FFT (fun l => l.map (fun x => (x, 0))) [0, 1] 1 1 2 true).2.length ∧
      (FFT (fun l => l.map (fun x => (x, 0))) [0, 1] 1 1 2 true).2.head? = some 0 ∧
      (∀ x ∈ (FFT (fun l => l.map (fun x => (x, 0))) [0, 1] 1 1 2 true).2, 0 ≤ x) ∧
      (FFT (fun l => l.map (fun x => (x, 0))) [0, 1] 1 1 2 true).2.Pairwise (· < ·)) ∧
     ((DFT (fun _ n => List.replicate n 1) [0, 1] 1 1 4).1.length =
        (DFT (fun _ n => List.replicate n 1) [0, 1] 1 1 4).2.length ∧
      (DFT (fun _ n => List.replicate n 1) [0, 1] 1 1 4).2.head? = some 0 ∧
      (∀ x ∈ (DFT (fun _ n => List.replicate n 1) [0, 1] 1 1 4).2, 0 ≤ x) ∧
      (DFT (fun _ n => List.replicate n 1) [0, 1] 1 1 4).2.Pairwise (· < ·))) :=
  ⟨⟨fun l => by simp, by simp, by simp, by norm_num, by omega⟩,
    spectrum_dc_first_ascending (fun l => l.map (fun x => (x, 0)))
      (fun _ n => List.replicate n 1) [0, 1] 1 1 2 true 4
      (fun l => by simp) (by simp) (by simp) (by norm_num) (by norm_num)
      (by omega)⟩

/-! ## Offset carry-over in `calc_long_WP` -/

/-- A second concrete valid wake input, small enough to evaluate the
whole 9-offset loop: 3 time samples with `dt = 1`, grid `z = [0, c]`,
`t_inj = 1`, `q = 1 pC`, constant unit field. -/
def exInput3 : WakeInput :=
  { fld := fun _ _ _ => [1, 1]
    t := [0, 1, 2]
    z := [0, cLight]
    tinj := 1
    q := 1 / 1000000000000 }

theorem exInput3_nt : exInput3.nt = 3 := by
  simp [exInput3, WakeInput.nt]

theorem exInput3_dt : exInput3.dt = 1 := by
  simp [exInput3, WakeInput.dt]
  norm_num

theorem exInput3_zmin : exInput3.zmin = 0 := by
  simp [exInput3, WakeInput.zmin, listMin]
  norm_num [cLight]

theorem exInput3_zmax : exInput3.zmax = cLight := by
  simp [exInput3, WakeInput.zmax, listMax]
  norm_num [cLight]

theorem exInput3_wakeLength : exInput3.wakeLength = cLight := by
  rw [WakeInput.wakeLength, exInput3_nt, exInput3_dt, exInput3_zmax,
    exInput3_zmin]
  show (3 : ℚ) * 1 * cLight - (cLight - 0) - exInput3.tinj * cLight = cLight
  show (3 : ℚ) * 1 * cLight - (cLight - 0) - 1 * cLight = cLight
  ring

theorem exInput3_nsNeg : exInput3.nsNeg = 1 := by
  rw [WakeInput.nsNeg, exInput3_dt]
  show ((pyInt (exInput3.tinj / 1)).toNat) = 1
  show ((pyInt ((1 : ℚ) / 1)).toNat) = 1
  norm_num [pyInt]

theorem exInput3_nsPos : exInput3.nsPos = 1 := by
  rw [WakeInput.nsPos, exInput3_dt, exInput3_wakeLength]
  show ((pyInt ((cLight : ℚ) / (1 * cLight))).toNat) = 1
  norm_num [pyInt, cLight]

theorem exInput3_s : exInput3.s = [-cLight, 0] := by
  rw [WakeInput.s, exInput3_nsNeg, exInput3_nsPos]
  show linspace (-exInput3.tinj * cLight) 0 1 ++ linspace 0 exInput3.wakeLength 1 =
    [-cLight, 0]
  show linspace (-(1 : ℚ) * cLight) 0 1 ++ linspace 0 exInput3.wakeLength 1 =
    [-cLight, 0]
  norm_num [linspace]

theorem exInput3_zi : exInput3.zi = [0, cLight / 2, cLight] := by
  rw [WakeInput.zi, exInput3_zmin, exInput3_zmax, exInput3_nt]
  norm_num [linspace, List.range_succ]

theorem exInput3_dzi : exInput3.dzi = cLight / 2 := by
  rw [WakeInput.dzi, exInput3_zi]
  show (cLight : ℚ) - cLight / 2 = cLight / 2
  ring

theorem exInput3_Ezi (i j k n : ℕ) (hk : k < 3) :
    exInput3.Ezi i j k n = 1 := by
  rw [WakeInput.Ezi, exInput3_zi]
  show (npInterp [0, cLight / 2, cLight] [0, cLight] [1, 1]).getD k 0 = 1
  have hconst : ∀ x : ℚ, interpPts x (([0, cLight] : List ℚ).zip [1, 1]) = 1 := by
    intro x
    apply interpPts_const
    · simp
    · intro p hp
      simp only [List.zip_cons_cons, List.zip_nil_right, List.mem_cons,
        List.mem_singleton, List.not_mem_nil, or_false] at hp
      rcases hp with rfl | rfl <;> rfl
  rw [npInterp, List.map_cons, List.map_cons, List.map_cons, List.map_nil,
    hconst, hconst, hconst]
  interval_cases k <;> rfl

theorem exInput3_ts00 : exInput3.ts 0 0 = 0 := by
  rw [WakeInput.ts, exInput3_zi, exInput3_s, exInput3_zmin]
  show ((0 : ℚ) + -cLight) / cLight - 0 / cLight - exInput3.t.getD 0 0 +
    exInput3.tinj = 0
  show ((0 : ℚ) + -cLight) / cLight - 0 / cLight - 0 + 1 = 0
  norm_num [cLight]

theorem exInput3_ts10 : exInput3.ts 1 0 = 1 / 2 := by
  rw [WakeInput.ts, exInput3_zi, exInput3_s, exInput3_zmin]
  show ((cLight / 2 : ℚ) + -cLight) / cLight - 0 / cLight -
    exInput3.t.getD 0 0 + exInput3.tinj = 1 / 2
  show ((cLight / 2 : ℚ) + -cLight) / cLight - 0 / cLight - 0 + 1 = 1 / 2
  norm_num [cLight]

theorem exInput3_ts20 : exInput3.ts 2 0 = 1 := by
  rw [WakeInput.ts, exInput3_zi, exInput3_s, exInput3_zmin]
  show ((cLight : ℚ) + -cLight) / cLight - 0 / cLight -
    exInput3.t.getD 0 0 + exInput3.tinj = 1
  show ((cLight : ℚ) + -cLight) / cLight - 0 / cLight - 0 + 1 = 1
  norm_num [cLight]

theorem exInput3_ts01 : exInput3.ts 0 1 = 1 := by
  rw [WakeInput.ts, exInput3_zi, exInput3_s, exInput3_zmin]
  show ((0 : ℚ) + 0) / cLight - 0 / cLight - exInput3.t.getD 0 0 +
    exInput3.tinj = 1
  show ((0 : ℚ) + 0) / cLight - 0 / cLight - 0 + 1 = 1
  norm_num

theorem exInput3_ts11 : exInput3.ts 1 1 = 3 / 2 := by
  rw [WakeInput.ts, exInput3_zi, exInput3_s, exInput3_zmin]
  show ((cLight / 2 : ℚ) + 0) / cLight - 0 / cLight -
    exInput3.t.getD 0 0 + exInput3.tinj = 3 / 2
  show ((cLight / 2 : ℚ) + 0) / cLight - 0 / cLight - 0 + 1 = 3 / 2
  norm_num [cLight]

theorem exInput3_ts21 : exInput3.ts 2 1 = 2 := by
  rw [WakeInput.ts, exInput3_zi, exInput3_s, exInput3_zmin]
  show ((cLight : ℚ) + 0) / cLight - 0 / cLight - exInput3.t.getD 0 0 +
    exInput3.tinj = 2
  show ((cLight : ℚ) + 0) / cLight - 0 / cLight - 0 + 1 = 2
  norm_num [cLight]

theorem ex3_it_half : pyIdx 3 (pyInt (1 / 2 / 1 : ℚ) - 1) = 2 := by
  have h : pyInt (1 / 2 / 1 : ℚ) = 0 := by
    norm_num [pyInt]
  rw [h]
  rw [pyIdx, if_pos (by norm_num)]
  rfl

theorem ex3_it_one : pyIdx 3 (pyInt (1 / 1 : ℚ) - 1) = 0 := by
  have h : pyInt (1 / 1 : ℚ) = 1 := by
    norm_num [pyInt]
  rw [h]
  rw [pyIdx, if_neg (by norm_num)]
  rfl

theorem ex3_it_threehalf : pyIdx 3 (pyInt (3 / 2 / 1 : ℚ) - 1) = 0 := by
  have h : pyInt (3 / 2 / 1 : ℚ) = 1 := by
    norm_num [pyInt]
  rw [h]
  rw [pyIdx, if_neg (by norm_num)]
  rfl

theorem ex3_it_two : pyIdx 3 (pyInt (2 / 1 : ℚ) - 1) = 1 := by
  have h : pyInt (2 / 1 : ℚ) = 2 := by
    norm_num [pyInt]
  rw [h]
  rw [pyIdx, if_neg (by norm_num)]
  rfl

theorem exInput3_wpEntry0 (i j : ℕ) (w0 : ℚ) :
    exInput3.wpEntry i j w0 0 = w0 + cLight := by
  rw [WakeInput.wpEntry, exInput3_nt,
    show List.range 3 = [0, 1, 2] from rfl]
  simp only [List.foldl_cons, List.foldl_nil]
  rw [if_neg (show ¬ (0 < exInput3.ts 0 0) by rw [exInput3_ts00]; norm_num)]
  rw [if_pos (show 0 < exInput3.ts 1 0 by rw [exInput3_ts10]; norm_num)]
  rw [if_pos (show 0 < exInput3.ts 2 0 by rw [exInput3_ts20]; norm_num)]
  rw [exInput3_ts10, exInput3_ts20, exInput3_dt, exInput3_dzi]
  rw [ex3_it_half, ex3_it_one]
  rw [exInput3_Ezi i j 1 2 (by omega), exInput3_Ezi i j 2 0 (by omega)]
  ring

theorem exInput3_wpEntry1 (i j : ℕ) (w0 : ℚ) :
    exInput3.wpEntry i j w0 1 = w0 + 3 * cLight / 2 := by
  rw [WakeInput.wpEntry, exInput3_nt,
    show List.range 3 = [0, 1, 2] from rfl]
  simp only [List.foldl_cons, List.foldl_nil]
  rw [if_pos (show 0 < exInput3.ts 0 1 by rw [exInput3_ts01]; norm_num)]
  rw [if_pos (show 0 < exInput3.ts 1 1 by rw [exInput3_ts11]; norm_num)]
  rw [if_pos (show 0 < exInput3.ts 2 1 by rw [exInput3_ts21]; norm_num)]
  rw [exInput3_ts01, exInput3_ts11, exInput3_ts21, exInput3_dt, exInput3_dzi]
  rw [ex3_it_one, ex3_it_threehalf, ex3_it_two]
  rw [exInput3_Ezi i j 0 0 (by omega), exInput3_Ezi i j 1 0 (by omega),
    exInput3_Ezi i j 2 1 (by omega)]
  ring

theorem exInput3_s_length : exInput3.s.length = 2 := by
  rw [exInput3_s]
  rfl

theorem exInput3_wpOffset (i j : ℕ) (wp : List ℚ) :
    exInput3.wpOffset i j wp =
      [wp.getD 0 0 + cLight, wp.getD 1 0 + 3 * cLight / 2] := by
  rw [WakeInput.wpOffset, exInput3_s_length,
    show List.range 2 = [0, 1] from rfl]
  simp only [List.map_cons, List.map_nil]
  rw [exInput3_wpEntry0, exInput3_wpEntry1]

theorem exInput3_qnorm : exInput3.q * 1000000000000 = 1 := by
  norm_num [exInput3]

theorem exInput3_wpAll :
    exInput3.wpAll =
      [[cLight, 3 * cLight / 2],
       [2 * cLight, 3 * cLight],
       [3 * cLight, 9 * cLight / 2],
       [4 * cLight, 6 * cLight],
       [5 * cLight, 15 * cLight / 2],
       [6 * cLight, 9 * cLight],
       [7 * cLight, 21 * cLight / 2],
       [8 * cLight, 12 * cLight],
       [9 * cLight, 27 * cLight / 2]] := by
  rw [WakeInput.wpAll, offsets, exInput3_s_length,
    show List.replicate 2 (0 : ℚ) = [0, 0] from rfl]
  simp only [List.foldl_cons, List.foldl_nil, exInput3_wpOffset,
    exInput3_qnorm, div_one, List.map_cons, List.map_nil,
    List.getD_cons_zero, List.getD_cons_succ, List.append_nil,
    List.cons_append, List.nil_append]
  norm_num
  and_intros <;> ring

theorem exInput3_wpStandalone01 :
    exInput3.wpStandalone 0 1 = [cLight, 3 * cLight / 2] := by
  rw [WakeInput.wpStandalone, exInput3_s_length,
    show List.replicate 2 (0 : ℚ) = [0, 0] from rfl, exInput3_wpOffset]
  simp only [List.map_cons, List.map_nil, exInput3_qnorm, div_one,
    List.getD_cons_zero, List.getD_cons_succ]
  norm_num

/-- C3: the offsets of `calc_long_WP` are *not* independent: the
accumulator `WP` is never reset between the 9 offset iterations, so
each stored slice carries the previous offsets' normalized values.
At the concrete valid input `exInput3` (constant unit field,
`q = 1 pC`), the per-offset algorithm alone gives
`[c, 3c/2]` at every offset, but the returned slice `WP_3d[0,1,:]`
(the second offset visited) is `[2c, 3c]` — twice the standalone
value. -/
theorem calc_long_WP_offsets_not_independent :
    exInput3.wp3d 0 1 = [2 * cLight, 3 * cLight] ∧
    exInput3.wpStandalone 0 1 = [cLight, 3 * cLight / 2] ∧
    exInput3.wp3d 0 1 ≠ exInput3.wpStandalone 0 1 := by
  have h1 : exInput3.wp3d 0 1 = [2 * cLight, 3 * cLight] := by
    rw [WakeInput.wp3d, exInput3_wpAll]
    rfl
  refine ⟨h1, exInput3_wpStandalone01, ?_⟩
  rw [h1, exInput3_wpStandalone01]
  intro h
  have hh := List.head_eq_of_cons_eq h
  norm_num [cLight] at hh

end SolverModule
